import Mathlib

/-!
Shallow embedding of `src/map.c` / `include/map.h` from the `simple-cmap`
repository: a generic associative container built on an unordered dynamic
array of `(key, value)` entries with linear-scan lookup and a pluggable
key comparator.

Modelling conventions:
* A C string is a `List Nat` — the sequence of bytes before the
  terminating NUL (a valid C string stores only nonzero bytes there).
* A pointer used purely as an identity (the keys of
  `map_compare_ptr_keys`) is a `Nat` address.
* A numeric key is a pointer to a scalar; it is modelled as `NumKey α`,
  an address paired with the pointee value, so that two distinct key
  instances (different addresses) may carry equal dereferenced values.
* A `float`/`double` value is an `FpVal`: NaN or an exact numeric value;
  IEEE-754 `==` is `fpEq` (NaN is unequal to everything, `+0`/`-0` are
  both `FpVal.num 0` and hence equal).
* A `Map *` that may be NULL is `Option (MapImpl K V)`; `none` is NULL.
  The C `size` field always equals the number of occupied entries, so the
  model stores the occupied entries as a list and `size` is its length;
  `capacity` counts allocated slots (the unoccupied ones hold no data).
* Machine integer widths are idealized as `Nat`/`Int`: no claim below
  depends on wrap-around of `unsigned int` sizes.
* `malloc`/`realloc` success is an explicit `allocOk : Bool` parameter.
-/

set_option autoImplicit false

namespace SimpleCMap

/-- Model of `tolower` from ctype.h in the C locale, applied to a byte value. -/
def tolower (c : Nat) : Nat :=
  if 65 ≤ c ∧ c ≤ 90 then c + 32 else c

/-- Model of `strcmp` from string.h on modelled C strings: `0` when the byte
sequences match; otherwise the difference at the first mismatch (with the
shorter string's terminating NUL read as byte 0). -/
def strcmp : List Nat → List Nat → Int
  | [], [] => 0
  | [], c :: _ => -(c : Int)
  | c :: _, [] => (c : Int)
  | c1 :: r1, c2 :: r2 => if c1 = c2 then strcmp r1 r2 else (c1 : Int) - (c2 : Int)

/-- Model of `str_lower` from map.c. The loop `while (*s) *s++ = tolower(*s);`
advances `s` over every byte of the buffer (lower-casing the buffer in
place) and the function then returns `s` itself — a pointer to the
terminating NUL, not to the start of the buffer. Read as a C string, the
returned string is therefore always empty; this definition models the
string the returned pointer denotes. -/
def str_lower : List Nat → List Nat
  | [] => []
  | _ :: rest => str_lower rest

/-- Model of `map_compare_string_keys` from map.c: `strcmp` on the two keys. -/
def map_compare_string_keys (key1 key2 : List Nat) : Int :=
  strcmp key1 key2

/-- Model of `map_compare_string_keys_ignoring_case` from map.c, on non-NULL keys:
each key is `strdup`ed and passed through `str_lower`, and the two values
*returned by* `str_lower` are handed to `map_compare_string_keys`. (The
duplicated buffers are leaked — the `free` calls are commented out.) -/
def map_compare_string_keys_ignoring_case (key1 key2 : List Nat) : Int :=
  map_compare_string_keys (str_lower key1) (str_lower key2)

/-- The comparison the header documents for the case-insensitive
comparator: lower-case both strings fully, then `strcmp` the copies. -/
def documented_compare_ignoring_case (key1 key2 : List Nat) : Int :=
  strcmp (key1.map tolower) (key2.map tolower)

/-- A numeric key: a pointer to a scalar, modelled as the address paired
with the pointee. Comparators dereference, so they read only `val`. -/
structure NumKey (α : Type) where
  addr : Nat
  val : α
deriving DecidableEq

/-- A `float`/`double` value: NaN, or an exact numeric value. -/
inductive FpVal where
  | nan : FpVal
  | num : ℚ → FpVal
deriving DecidableEq

/-- IEEE-754 `==` on modelled floating-point values: NaN compares unequal
to everything (itself included); numeric values compare by value. -/
def fpEq : FpVal → FpVal → Bool
  | FpVal.num a, FpVal.num b => a == b
  | _, _ => false

/-- Model of `map_compare_int_keys` from map.c: dereference both and compare,
`0` on equality and `-1` otherwise. -/
def map_compare_int_keys (intPtr1 intPtr2 : NumKey Int) : Int :=
  if intPtr1.val = intPtr2.val then 0 else -1

/-- Model of `map_compare_uint_keys` from map.c. -/
def map_compare_uint_keys (uintPtr1 uintPtr2 : NumKey Nat) : Int :=
  if uintPtr1.val = uintPtr2.val then 0 else -1

/-- Model of `map_compare_float_keys` from map.c: `float1 == float2 ? 0 : -1`. -/
def map_compare_float_keys (floatPtr1 floatPtr2 : NumKey FpVal) : Int :=
  if fpEq floatPtr1.val floatPtr2.val then 0 else -1

/-- Model of `map_compare_double_keys` from map.c: `double1 == double2 ? 0 : -1`. -/
def map_compare_double_keys (doublePtr1 doublePtr2 : NumKey FpVal) : Int :=
  if fpEq doublePtr1.val doublePtr2.val then 0 else -1

/-- Model of `map_compare_ptr_keys` from map.c: `return ptrKey1 == ptrKey2;`.
The C `==` operator yields int `1` when the pointers are equal and `0`
when they differ, and that int is returned unchanged. -/
def map_compare_ptr_keys (ptrKey1 ptrKey2 : Nat) : Int :=
  if ptrKey1 = ptrKey2 then 1 else 0

/-- The `MapImpl` record from map.c: occupied entries, allocated
capacity, and the bound comparator. -/
structure MapImpl (K V : Type) where
  entries : List (K × V)
  capacity : Nat
  compare_func : K → K → Int

/-- The `size` field: the count of occupied entries. -/
def MapImpl.size {K V : Type} (impl : MapImpl K V) : Nat :=
  impl.entries.length

/-- The scan loop of `find_entry_index`: first index whose stored key
compares equal (comparator result `0`) to the probe key. `none` models
the C return value `-1`. -/
def findKeyIdx {K V : Type} (cmp : K → K → Int) (key : K) :
    List (K × V) → Option Nat
  | [] => none
  | e :: rest =>
    if cmp e.1 key = 0 then some 0
    else (findKeyIdx cmp key rest).map (fun i => i + 1)

/-- Model of `find_entry_index` from map.c: linear scan over the occupied entries,
calling `compare_func(entries[i].key, key)`. -/
def find_entry_index {K V : Type} (impl : MapImpl K V) (key : K) : Option Nat :=
  findKeyIdx impl.compare_func key impl.entries

/-- The in-place assignment `entries[index].value = value` as a list
operation: replace the value stored at `index`, keep the key. -/
def setValueAt {K V : Type} : List (K × V) → Nat → V → List (K × V)
  | [], _, _ => []
  | e :: rest, 0, v => (e.1, v) :: rest
  | e :: rest, i + 1, v => e :: setValueAt rest i v

/-- Model of `map_set` from map.c on a non-NULL map: if the key is found, its
value is overwritten in place; otherwise, when the map is full the
capacity is doubled first (failing with `-1` and no modification if
`realloc` fails), and then the new entry is appended at index `size`. -/
def map_setI {K V : Type} (impl : MapImpl K V) (key : K) (value : V)
    (allocOk : Bool) : Int × MapImpl K V :=
  match find_entry_index impl key with
  | some index => (0, { impl with entries := setValueAt impl.entries index value })
  | none =>
    if impl.size ≥ impl.capacity then
      if allocOk then
        (0, { impl with capacity := impl.capacity * 2,
                        entries := impl.entries ++ [(key, value)] })
      else (-1, impl)
    else (0, { impl with entries := impl.entries ++ [(key, value)] })

/-- Model of `map_set` from map.c including the NULL-map guard: `!map` returns
`-1` at once. -/
def map_set {K V : Type} (map : Option (MapImpl K V)) (key : K) (value : V)
    (allocOk : Bool) : Int × Option (MapImpl K V) :=
  match map with
  | none => (-1, none)
  | some impl =>
    let r := map_setI impl key value allocOk
    (r.1, some r.2)

/-- Model of `map_get` from map.c on a non-NULL map: linear scan; the matching
entry's value if found, NULL (`none`) otherwise. -/
def map_getI {K V : Type} (impl : MapImpl K V) (key : K) : Option V :=
  match find_entry_index impl key with
  | some index => (impl.entries[index]?).map Prod.snd
  | none => none

/-- Model of `map_get` from map.c including the NULL-map guard. -/
def map_get {K V : Type} (map : Option (MapImpl K V)) (key : K) : Option V :=
  match map with
  | none => none
  | some impl => map_getI impl key

/-- Model of `map_delete` from map.c on a non-NULL map: if the key is found, the
`memmove` shifts every later entry one slot down and `size` is
decremented — i.e. the entry at the found index is erased; otherwise
nothing happens. -/
def map_deleteI {K V : Type} (impl : MapImpl K V) (key : K) : MapImpl K V :=
  match find_entry_index impl key with
  | some index => { impl with entries := impl.entries.eraseIdx index }
  | none => impl

/-- Model of `map_delete` from map.c including the NULL-map guard. -/
def map_delete {K V : Type} (map : Option (MapImpl K V)) (key : K) :
    Option (MapImpl K V) :=
  match map with
  | none => none
  | some impl => some (map_deleteI impl key)

/-- Model of `map_get_size` from map.c: `-1` on a NULL map, else the size. -/
def map_get_size {K V : Type} (map : Option (MapImpl K V)) : Int :=
  match map with
  | none => -1
  | some impl => (impl.size : Int)

/-- Model of `map_get_capacity` from map.c: `-1` on a NULL map, else capacity. -/
def map_get_capacity {K V : Type} (map : Option (MapImpl K V)) : Int :=
  match map with
  | none => -1
  | some impl => (impl.capacity : Int)

/-- Model of `map_free` from map.c: whether the call released the entry array and
the map record. On a NULL map the guard returns before either `free`. -/
def map_free {K V : Type} (map : Option (MapImpl K V)) : Bool :=
  match map with
  | none => false
  | some _ => true

/-- The map `map_create` builds once both allocations succeed: no
occupied entries, the capacity-0 sentinel replaced by 10, and the
comparator bound. -/
def map_createI (K V : Type) (initial_capacity : Nat)
    (compare_func : K → K → Int) : MapImpl K V :=
  { entries := [],
    capacity := if initial_capacity = 0 then 10 else initial_capacity,
    compare_func := compare_func }

/-- Model of `map_create` from map.c: NULL when either `malloc` fails. -/
def map_create (K V : Type) (initial_capacity : Nat)
    (compare_func : K → K → Int) (allocOk : Bool) : Option (MapImpl K V) :=
  if allocOk then some (map_createI K V initial_capacity compare_func) else none

/-! ### Specification-level descriptions of the entry-list transforms

These recursive functions restate, entry by entry, what the find-then-
index manipulation in `map_setI`/`map_getI`/`map_deleteI` does to the
occupied-entry list; the bridge lemmas below prove them equal. -/

/-- What `map_set` does to the occupied entries (when any needed
reallocation succeeds): overwrite the value of the first entry whose
stored key compares equal to `key`, else append `(key, value)`. -/
def upsert {K V : Type} (cmp : K → K → Int) (key : K) (value : V) :
    List (K × V) → List (K × V)
  | [] => [(key, value)]
  | e :: rest =>
    if cmp e.1 key = 0 then (e.1, value) :: rest
    else e :: upsert cmp key value rest

/-- What `map_get` computes: the value of the first entry whose stored
key compares equal to `key`. -/
def lookupFirst {K V : Type} (cmp : K → K → Int) (key : K) :
    List (K × V) → Option V
  | [] => none
  | e :: rest =>
    if cmp e.1 key = 0 then some e.2 else lookupFirst cmp key rest

/-- What `map_delete` does to the occupied entries: drop the first entry
whose stored key compares equal to `key`, if there is one. -/
def removeFirst {K V : Type} (cmp : K → K → Int) (key : K) :
    List (K × V) → List (K × V)
  | [] => []
  | e :: rest =>
    if cmp e.1 key = 0 then rest else e :: removeFirst cmp key rest

/-- The value the most recent `set` bound to (the equivalence class of)
the probe key over a chronologically ordered sequence of `set`
operations; `none` when no set key compares equal to the probe. -/
def lastValueFor {K V : Type} (cmp : K → K → Int) (key : K) :
    List (K × V) → Option V
  | [] => none
  | op :: rest =>
    (lastValueFor cmp key rest).or
      (if cmp op.1 key = 0 then some op.2 else none)

/-- Run a chronological list of `set` operations (all allocations
succeeding) against a map. -/
def setAll {K V : Type} (impl : MapImpl K V) : List (K × V) → MapImpl K V
  | [] => impl
  | op :: rest => setAll (map_setI impl op.1 op.2 true).2 rest

/-- One observable operation of the public API, for stating invariants
over arbitrary operation sequences. `get` reads but never writes. -/
inductive MapOp (K V : Type) where
  | set (key : K) (value : V) (allocOk : Bool) : MapOp K V
  | get (key : K) : MapOp K V
  | delete (key : K) : MapOp K V

/-- The state transition of one operation. -/
def applyOp {K V : Type} (impl : MapImpl K V) : MapOp K V → MapImpl K V
  | MapOp.set key value allocOk => (map_setI impl key value allocOk).2
  | MapOp.get _ => impl
  | MapOp.delete key => map_deleteI impl key

/-- Run a chronological list of operations. -/
def applyOps {K V : Type} (impl : MapImpl K V) : List (MapOp K V) → MapImpl K V
  | [] => impl
  | op :: rest => applyOps (applyOp impl op) rest

/-- A comparator whose kernel behaves like an equivalence on keys:
reflexive, symmetric and transitive in the "compares equal" sense. The
header's contract — zero iff the two keys are identical under the
comparator's semantics — presumes exactly this of a comparator. -/
def IsEquivCmp {K : Type} (cmp : K → K → Int) : Prop :=
  (∀ a, cmp a a = 0) ∧
  (∀ a b, cmp a b = 0 → cmp b a = 0) ∧
  (∀ a b c, cmp a b = 0 → cmp b c = 0 → cmp a c = 0)

/-- A comparator that signals "equal" symmetrically. -/
def SymmCmp {K : Type} (cmp : K → K → Int) : Prop :=
  ∀ a b, cmp a b = 0 → cmp b a = 0

/-- The container invariant: no stored key compares equal to a later
stored key (reading the comparator as stored-then-probe). -/
def EntriesDistinct {K V : Type} (cmp : K → K → Int) (l : List (K × V)) : Prop :=
  List.Pairwise (fun a b => cmp a.1 b.1 ≠ 0) l

/-! ### Bridge lemmas: the C index manipulation equals the
specification-level list transforms -/

theorem findKeyIdx_lt_length {K V : Type} (cmp : K → K → Int) (key : K) :
    ∀ (l : List (K × V)) (i : Nat), findKeyIdx cmp key l = some i → i < l.length := by
  intro l
  induction l with
  | nil => intro i h; simp [findKeyIdx] at h
  | cons e rest ih =>
    intro i h
    by_cases hc : cmp e.1 key = 0
    · simp [findKeyIdx, hc] at h
      simp [List.length_cons]
      omega
    · simp [findKeyIdx, hc] at h
      obtain ⟨j, hj, rfl⟩ := h
      have := ih j hj
      simp [List.length_cons]
      omega

theorem findKeyIdx_eq_none_iff {K V : Type} (cmp : K → K → Int) (key : K) :
    ∀ l : List (K × V), findKeyIdx cmp key l = none ↔ ∀ e ∈ l, cmp e.1 key ≠ 0 := by
  intro l
  induction l with
  | nil => simp [findKeyIdx]
  | cons e rest ih =>
    by_cases hc : cmp e.1 key = 0
    · simp [findKeyIdx, hc]
    · simp [findKeyIdx, hc, ih]

theorem setValueAt_found_eq_upsert {K V : Type} (cmp : K → K → Int)
    (key : K) (value : V) :
    ∀ (l : List (K × V)) (i : Nat), findKeyIdx cmp key l = some i →
      setValueAt l i value = upsert cmp key value l := by
  intro l
  induction l with
  | nil => intro i h; simp [findKeyIdx] at h
  | cons e rest ih =>
    intro i h
    by_cases hc : cmp e.1 key = 0
    · simp [findKeyIdx, hc] at h
      subst h
      simp [setValueAt, upsert, hc]
    · simp [findKeyIdx, hc] at h
      obtain ⟨j, hj, rfl⟩ := h
      simp [setValueAt, upsert, hc, ih j hj]

theorem append_notfound_eq_upsert {K V : Type} (cmp : K → K → Int)
    (key : K) (value : V) :
    ∀ l : List (K × V), findKeyIdx cmp key l = none →
      l ++ [(key, value)] = upsert cmp key value l := by
  intro l
  induction l with
  | nil => intro _; simp [upsert]
  | cons e rest ih =>
    intro h
    by_cases hc : cmp e.1 key = 0
    · simp [findKeyIdx, hc] at h
    · simp [findKeyIdx, hc] at h
      simp [upsert, hc, ih h]

/-- With all allocations succeeding, `map_set` transforms the occupied
entries exactly as `upsert`, and keeps the comparator. -/
theorem map_setI_entries_eq_upsert {K V : Type} (impl : MapImpl K V)
    (key : K) (value : V) :
    (map_setI impl key value true).2.entries
      = upsert impl.compare_func key value impl.entries ∧
    (map_setI impl key value true).2.compare_func = impl.compare_func := by
  unfold map_setI find_entry_index
  cases h : findKeyIdx impl.compare_func key impl.entries with
  | some i =>
    simp [setValueAt_found_eq_upsert impl.compare_func key value impl.entries i h]
  | none =>
    by_cases hful : impl.size ≥ impl.capacity <;>
      simp [hful, append_notfound_eq_upsert impl.compare_func key value impl.entries h]

theorem find_then_index_eq_lookupFirst {K V : Type} (cmp : K → K → Int) (key : K) :
    ∀ l : List (K × V),
      (match findKeyIdx cmp key l with
       | some i => ((l[i]?).map Prod.snd : Option V)
       | none => none) = lookupFirst cmp key l := by
  intro l
  induction l with
  | nil => simp [findKeyIdx, lookupFirst]
  | cons e rest ih =>
    by_cases hc : cmp e.1 key = 0
    · simp [findKeyIdx, hc, lookupFirst]
    · simp only [findKeyIdx, hc, if_false, lookupFirst]
      cases h : findKeyIdx (K := K) (V := V) cmp key rest with
      | some i =>
        simp only [h, Option.map_some']
        simpa [h] using ih
      | none =>
        simp only [h, Option.map_none']
        simpa [h] using ih

/-- The function `map_get` computes `lookupFirst`. -/
theorem map_getI_eq_lookupFirst {K V : Type} (impl : MapImpl K V) (key : K) :
    map_getI impl key = lookupFirst impl.compare_func key impl.entries := by
  unfold map_getI find_entry_index
  exact find_then_index_eq_lookupFirst impl.compare_func key impl.entries

theorem find_then_erase_eq_removeFirst {K V : Type} (cmp : K → K → Int) (key : K) :
    ∀ l : List (K × V),
      (match findKeyIdx cmp key l with
       | some i => l.eraseIdx i
       | none => l) = removeFirst cmp key l := by
  intro l
  induction l with
  | nil => simp [findKeyIdx, removeFirst]
  | cons e rest ih =>
    by_cases hc : cmp e.1 key = 0
    · simp [findKeyIdx, hc, removeFirst, List.eraseIdx]
    · simp only [findKeyIdx, hc, if_false, removeFirst]
      cases h : findKeyIdx (K := K) (V := V) cmp key rest with
      | some i =>
        simp only [h, Option.map_some', List.eraseIdx]
        simpa [h] using congrArg (List.cons e) ih
      | none =>
        simp only [h, Option.map_none']
        simpa [h] using congrArg (List.cons e) ih

/-- The function `map_delete` transforms the occupied entries exactly as
`removeFirst`, and keeps the comparator and capacity. -/
theorem map_deleteI_entries_eq_removeFirst {K V : Type} (impl : MapImpl K V) (key : K) :
    (map_deleteI impl key).entries
      = removeFirst impl.compare_func key impl.entries ∧
    (map_deleteI impl key).compare_func = impl.compare_func ∧
    (map_deleteI impl key).capacity = impl.capacity := by
  unfold map_deleteI find_entry_index
  cases h : findKeyIdx impl.compare_func key impl.entries with
  | some i =>
    have := find_then_erase_eq_removeFirst impl.compare_func key impl.entries
    rw [h] at this
    simpa using this
  | none =>
    have := find_then_erase_eq_removeFirst impl.compare_func key impl.entries
    rw [h] at this
    simpa using this

/-! ### Lookup after set: the semantic core of the set/get contract -/

/-- After an `upsert`, looking a key up yields the upserted value when
the probe compares equal to the set key, and is otherwise unaffected.
Needs the comparator's "equal" kernel to be symmetric and transitive. -/
theorem lookupFirst_upsert {K V : Type} (cmp : K → K → Int)
    (hs : ∀ a b, cmp a b = 0 → cmp b a = 0)
    (ht : ∀ a b c, cmp a b = 0 → cmp b c = 0 → cmp a c = 0)
    (k k2 : K) (v : V) :
    ∀ l : List (K × V),
      lookupFirst cmp k2 (upsert cmp k v l)
        = if cmp k k2 = 0 then some v else lookupFirst cmp k2 l := by
  intro l
  induction l with
  | nil => simp [upsert, lookupFirst]
  | cons a rest ih =>
    by_cases hak : cmp a.1 k = 0
    · by_cases hkk2 : cmp k k2 = 0
      · have ha2 : cmp a.1 k2 = 0 := ht _ _ _ hak hkk2
        simp [upsert, hak, lookupFirst, ha2, hkk2]
      · have ha2 : cmp a.1 k2 ≠ 0 := fun h => hkk2 (ht _ _ _ (hs _ _ hak) h)
        simp [upsert, hak, lookupFirst, ha2, hkk2]
    · by_cases hkk2 : cmp k k2 = 0
      · have ha2 : cmp a.1 k2 ≠ 0 := fun h => hak (ht _ _ _ h (hs _ _ hkk2))
        simp [upsert, hak, lookupFirst, ha2, hkk2, ih]
      · by_cases ha2 : cmp a.1 k2 = 0
        · simp [upsert, hak, lookupFirst, ha2, hkk2]
        · simp [upsert, hak, lookupFirst, ha2, hkk2, ih]

/-- The function `map_set` preserves the bound comparator, for any allocation
outcome. -/
theorem map_setI_compare_func {K V : Type} (impl : MapImpl K V) (key : K)
    (value : V) (allocOk : Bool) :
    (map_setI impl key value allocOk).2.compare_func = impl.compare_func := by
  unfold map_setI
  cases h : find_entry_index impl key with
  | some i => simp [h]
  | none =>
    by_cases hful : impl.size ≥ impl.capacity
    · cases allocOk <;> simp [h, hful]
    · simp [h, hful]

/-- A run of `set` operations preserves the bound comparator. -/
theorem setAll_compare_func {K V : Type} :
    ∀ (ops : List (K × V)) (impl : MapImpl K V),
      (setAll impl ops).compare_func = impl.compare_func := by
  intro ops
  induction ops with
  | nil => intro impl; rfl
  | cons op rest ih =>
    intro impl
    rw [setAll, ih]
    exact map_setI_compare_func impl op.1 op.2 true

/-- Running a chronological list of `set` operations (all allocations
succeeding): a later `get` sees the most recently set value for any key
comparing equal to the probe, and otherwise whatever the starting map
answered. -/
theorem map_getI_setAll {K V : Type} :
    ∀ (ops : List (K × V)) (impl : MapImpl K V),
      IsEquivCmp impl.compare_func → ∀ k2 : K,
      map_getI (setAll impl ops) k2
        = (lastValueFor impl.compare_func k2 ops).or (map_getI impl k2) := by
  intro ops
  induction ops with
  | nil => intro impl _ k2; simp [setAll, lastValueFor, Option.none_or]
  | cons op rest ih =>
    intro impl he k2
    obtain ⟨hr, hs, ht⟩ := he
    rw [setAll]
    have hcf : (map_setI impl op.1 op.2 true).2.compare_func = impl.compare_func :=
      map_setI_compare_func impl op.1 op.2 true
    have he2 : IsEquivCmp (map_setI impl op.1 op.2 true).2.compare_func := by
      rw [hcf]; exact ⟨hr, hs, ht⟩
    rw [ih (map_setI impl op.1 op.2 true).2 he2 k2, hcf]
    have hup := map_setI_entries_eq_upsert impl op.1 op.2
    have hget : map_getI (map_setI impl op.1 op.2 true).2 k2
        = if impl.compare_func op.1 k2 = 0 then some op.2 else map_getI impl k2 := by
      rw [map_getI_eq_lookupFirst, hup.2, hup.1,
        lookupFirst_upsert impl.compare_func hs ht op.1 k2 op.2 impl.entries,
        map_getI_eq_lookupFirst]
    rw [hget]
    show _ = (lastValueFor impl.compare_func k2 (op :: rest)).or _
    rw [lastValueFor, Option.or_assoc]
    by_cases hc : impl.compare_func op.1 k2 = 0
    · simp [hc]
    · simp [hc]

/-! ### The container invariant, preserved by every operation -/

theorem setValueAt_map_fst {K V : Type} (v : V) :
    ∀ (l : List (K × V)) (i : Nat),
      (setValueAt l i v).map Prod.fst = l.map Prod.fst := by
  intro l
  induction l with
  | nil => intro i; cases i <;> simp [setValueAt]
  | cons e rest ih =>
    intro i
    cases i with
    | zero => simp [setValueAt]
    | succ j => simp [setValueAt, ih j]

theorem setValueAt_length {K V : Type} (v : V) :
    ∀ (l : List (K × V)) (i : Nat), (setValueAt l i v).length = l.length := by
  intro l
  induction l with
  | nil => intro i; cases i <;> simp [setValueAt]
  | cons e rest ih =>
    intro i
    cases i with
    | zero => simp [setValueAt]
    | succ j => simp [setValueAt, ih j]

theorem removeFirst_sublist {K V : Type} (cmp : K → K → Int) (key : K) :
    ∀ l : List (K × V), List.Sublist (removeFirst cmp key l) l := by
  intro l
  induction l with
  | nil => exact List.Sublist.refl []
  | cons e rest ih =>
    by_cases hc : cmp e.1 key = 0
    · simpa only [removeFirst, hc, if_true] using List.sublist_cons_self e rest
    · simpa only [removeFirst, hc, if_false] using List.Sublist.cons₂ e ih

/-- Every key present after an `upsert` is the upserted key or one of the
keys already present. -/
theorem mem_upsert {K V : Type} (cmp : K → K → Int) (key : K) (value : V) :
    ∀ (l : List (K × V)) (b : K × V), b ∈ upsert cmp key value l →
      b.1 = key ∨ b.1 ∈ l.map Prod.fst := by
  intro l
  induction l with
  | nil =>
    intro b hb
    simp only [upsert, List.mem_singleton] at hb
    subst hb
    exact Or.inl rfl
  | cons e rest ih =>
    intro b hb
    by_cases hc : cmp e.1 key = 0
    · simp only [upsert, hc, if_true, List.mem_cons] at hb
      rcases hb with hb | hb
      · subst hb
        exact Or.inr (by rw [List.map_cons]; exact List.mem_cons_self _ _)
      · exact Or.inr (by
          rw [List.map_cons]
          exact List.mem_cons_of_mem _ (List.mem_map_of_mem Prod.fst hb))
    · simp only [upsert, hc, if_false, List.mem_cons] at hb
      rcases hb with hb | hb
      · subst hb
        exact Or.inr (by rw [List.map_cons]; exact List.mem_cons_self _ _)
      · rcases ih b hb with h | h
        · exact Or.inl h
        · exact Or.inr (by rw [List.map_cons]; exact List.mem_cons_of_mem _ h)

/-- The transform `upsert` preserves the pairwise-distinct-keys invariant (read as
stored-key-then-later-key, the direction the scan actually tests). -/
theorem upsert_entriesDistinct {K V : Type} (cmp : K → K → Int) (key : K) (value : V) :
    ∀ l : List (K × V), EntriesDistinct cmp l →
      EntriesDistinct cmp (upsert cmp key value l) := by
  intro l
  induction l with
  | nil => intro _; simp [upsert, EntriesDistinct]
  | cons e rest ih =>
    intro hl
    rw [EntriesDistinct, List.pairwise_cons] at hl
    obtain ⟨hhead, htail⟩ := hl
    by_cases hc : cmp e.1 key = 0
    · rw [EntriesDistinct]
      simp only [upsert, hc, if_true, List.pairwise_cons]
      exact ⟨fun b hb => hhead b hb, htail⟩
    · rw [EntriesDistinct]
      simp only [upsert, hc, if_false, List.pairwise_cons]
      constructor
      · intro b hb
        rcases mem_upsert cmp key value rest b hb with h | h
        · rw [h]; exact hc
        · obtain ⟨c, hcmem, hceq⟩ := List.mem_map.mp h
          rw [← hceq]
          exact hhead c hcmem
      · exact ih htail

/-- A pairwise-distinct key list stays pairwise distinct when the keys
are untouched (only values changed). -/
theorem entriesDistinct_of_map_fst_eq {K V : Type} (cmp : K → K → Int)
    {l1 l2 : List (K × V)} (h : l1.map Prod.fst = l2.map Prod.fst)
    (hd : EntriesDistinct cmp l1) : EntriesDistinct cmp l2 := by
  rw [EntriesDistinct] at hd ⊢
  have h1 : List.Pairwise (fun a b : K => cmp a b ≠ 0) (l1.map Prod.fst) :=
    (List.pairwise_map).mpr hd
  rw [h] at h1
  exact (List.pairwise_map).mp h1

/-- The four branches of `map_set` on a non-NULL map, with the result of
each. -/
theorem map_setI_cases {K V : Type} (impl : MapImpl K V) (key : K) (value : V)
    (allocOk : Bool) :
    (∃ i, find_entry_index impl key = some i ∧
      map_setI impl key value allocOk
        = (0, { impl with entries := setValueAt impl.entries i value })) ∨
    (find_entry_index impl key = none ∧ impl.size ≥ impl.capacity ∧ allocOk = true ∧
      map_setI impl key value allocOk
        = (0, { impl with capacity := impl.capacity * 2,
                          entries := impl.entries ++ [(key, value)] })) ∨
    (find_entry_index impl key = none ∧ impl.size ≥ impl.capacity ∧ allocOk = false ∧
      map_setI impl key value allocOk = (-1, impl)) ∨
    (find_entry_index impl key = none ∧ ¬impl.size ≥ impl.capacity ∧
      map_setI impl key value allocOk
        = (0, { impl with entries := impl.entries ++ [(key, value)] })) := by
  unfold map_setI
  cases hf : find_entry_index impl key with
  | some i => exact Or.inl ⟨i, rfl, rfl⟩
  | none =>
    by_cases hful : impl.size ≥ impl.capacity
    · cases allocOk with
      | true => exact Or.inr (Or.inl ⟨rfl, hful, rfl, by simp [hful]⟩)
      | false => exact Or.inr (Or.inr (Or.inl ⟨rfl, hful, rfl, by simp [hful]⟩))
    · exact Or.inr (Or.inr (Or.inr ⟨rfl, hful, by simp [hful]⟩))

/-- Well-formedness of a map state: positive capacity, size within
capacity, and pairwise-distinct stored keys. -/
def MapWF {K V : Type} (impl : MapImpl K V) : Prop :=
  1 ≤ impl.capacity ∧ impl.size ≤ impl.capacity ∧
    EntriesDistinct impl.compare_func impl.entries

theorem map_setI_preserves_WF {K V : Type} (impl : MapImpl K V) (key : K)
    (value : V) (allocOk : Bool) (h : MapWF impl) :
    MapWF (map_setI impl key value allocOk).2 := by
  obtain ⟨hcap, hsz, hdist⟩ := h
  have hlen : impl.entries.length ≤ impl.capacity := hsz
  rcases map_setI_cases impl key value allocOk with
    ⟨i, _, heq⟩ | ⟨hf, hful, _, heq⟩ | ⟨_, _, _, heq⟩ | ⟨hf, hful, heq⟩
  · rw [heq]
    refine ⟨hcap, ?_, ?_⟩
    · show (setValueAt impl.entries i value).length ≤ impl.capacity
      rw [setValueAt_length]
      exact hlen
    · exact entriesDistinct_of_map_fst_eq impl.compare_func
        (setValueAt_map_fst value impl.entries i).symm hdist
  · rw [heq]
    have hd2 : EntriesDistinct impl.compare_func (impl.entries ++ [(key, value)]) := by
      rw [append_notfound_eq_upsert impl.compare_func key value impl.entries hf]
      exact upsert_entriesDistinct impl.compare_func key value impl.entries hdist
    refine ⟨by show 1 ≤ impl.capacity * 2; omega, ?_, hd2⟩
    show (impl.entries ++ [(key, value)]).length ≤ impl.capacity * 2
    rw [List.length_append]
    have hsz3 : impl.size = impl.entries.length := rfl
    simp only [List.length_cons, List.length_nil]
    omega
  · rw [heq]
    exact ⟨hcap, hsz, hdist⟩
  · rw [heq]
    have hd2 : EntriesDistinct impl.compare_func (impl.entries ++ [(key, value)]) := by
      rw [append_notfound_eq_upsert impl.compare_func key value impl.entries hf]
      exact upsert_entriesDistinct impl.compare_func key value impl.entries hdist
    refine ⟨hcap, ?_, hd2⟩
    show (impl.entries ++ [(key, value)]).length ≤ impl.capacity
    rw [List.length_append]
    have hlt : impl.entries.length < impl.capacity := Nat.lt_of_not_le hful
    simp only [List.length_cons, List.length_nil]
    omega

theorem map_deleteI_preserves_WF {K V : Type} (impl : MapImpl K V) (key : K)
    (h : MapWF impl) : MapWF (map_deleteI impl key) := by
  obtain ⟨hcap, hsz, hdist⟩ := h
  obtain ⟨he, hc, hk⟩ := map_deleteI_entries_eq_removeFirst impl key
  refine ⟨by rw [hk]; exact hcap, ?_, ?_⟩
  · show (map_deleteI impl key).entries.length ≤ _
    rw [he, hk]
    exact le_trans
      (List.Sublist.length_le (removeFirst_sublist impl.compare_func key impl.entries)) hsz
  · rw [EntriesDistinct, he, hc]
    exact List.Pairwise.sublist (removeFirst_sublist impl.compare_func key impl.entries) hdist

theorem applyOp_preserves_WF {K V : Type} (impl : MapImpl K V) (op : MapOp K V)
    (h : MapWF impl) : MapWF (applyOp impl op) := by
  cases op with
  | set key value allocOk => exact map_setI_preserves_WF impl key value allocOk h
  | get key => exact h
  | delete key => exact map_deleteI_preserves_WF impl key h

theorem applyOps_preserves_WF {K V : Type} :
    ∀ (ops : List (MapOp K V)) (impl : MapImpl K V),
      MapWF impl → MapWF (applyOps impl ops) := by
  intro ops
  induction ops with
  | nil => intro impl h; exact h
  | cons op rest ih => intro impl h; exact ih (applyOp impl op) (applyOp_preserves_WF impl op h)

theorem applyOp_compare_func {K V : Type} (impl : MapImpl K V) (op : MapOp K V) :
    (applyOp impl op).compare_func = impl.compare_func := by
  cases op with
  | set key value allocOk => exact map_setI_compare_func impl key value allocOk
  | get key => rfl
  | delete key => exact (map_deleteI_entries_eq_removeFirst impl key).2.1

theorem applyOps_compare_func {K V : Type} :
    ∀ (ops : List (MapOp K V)) (impl : MapImpl K V),
      (applyOps impl ops).compare_func = impl.compare_func := by
  intro ops
  induction ops with
  | nil => intro impl; rfl
  | cons op rest ih =>
    intro impl
    rw [applyOps, ih, applyOp_compare_func]

theorem map_setI_capacity_mono {K V : Type} (impl : MapImpl K V) (key : K)
    (value : V) (allocOk : Bool) :
    impl.capacity ≤ (map_setI impl key value allocOk).2.capacity := by
  rcases map_setI_cases impl key value allocOk with
    ⟨i, _, heq⟩ | ⟨_, _, _, heq⟩ | ⟨_, _, _, heq⟩ | ⟨_, _, heq⟩ <;>
    rw [heq] <;> simp <;> omega

theorem applyOp_capacity_mono {K V : Type} (impl : MapImpl K V) (op : MapOp K V) :
    impl.capacity ≤ (applyOp impl op).capacity := by
  cases op with
  | set key value allocOk => exact map_setI_capacity_mono impl key value allocOk
  | get key => exact le_refl _
  | delete key =>
    show impl.capacity ≤ (map_deleteI impl key).capacity
    rw [(map_deleteI_entries_eq_removeFirst impl key).2.2]

theorem applyOps_capacity_mono {K V : Type} :
    ∀ (ops : List (MapOp K V)) (impl : MapImpl K V),
      impl.capacity ≤ (applyOps impl ops).capacity := by
  intro ops
  induction ops with
  | nil => intro impl; exact le_refl _
  | cons op rest ih =>
    intro impl
    exact le_trans (applyOp_capacity_mono impl op) (ih (applyOp impl op))

theorem map_createI_WF {K V : Type} (initial_capacity : Nat)
    (compare_func : K → K → Int) :
    MapWF (map_createI K V initial_capacity compare_func) := by
  refine ⟨?_, ?_, ?_⟩
  · show 1 ≤ (if initial_capacity = 0 then 10 else initial_capacity)
    by_cases h : initial_capacity = 0 <;> simp [h] <;> omega
  · show (List.length []) ≤ _
    simp
  · exact List.Pairwise.nil

/-! ### Delete semantics -/

theorem lookupFirst_eq_none_iff {K V : Type} (cmp : K → K → Int) (key : K) :
    ∀ l : List (K × V), lookupFirst cmp key l = none ↔ ∀ b ∈ l, cmp b.1 key ≠ 0 := by
  intro l
  induction l with
  | nil => simp [lookupFirst]
  | cons e rest ih =>
    by_cases hc : cmp e.1 key = 0
    · simp [lookupFirst, hc]
    · simp [lookupFirst, hc, ih]

/-- With pairwise-distinct stored keys and a well-behaved comparator, a
key has at most one matching entry, so after removing its match a lookup
finds nothing. -/
theorem lookupFirst_removeFirst_self {K V : Type} (cmp : K → K → Int)
    (hs : ∀ a b, cmp a b = 0 → cmp b a = 0)
    (ht : ∀ a b c, cmp a b = 0 → cmp b c = 0 → cmp a c = 0) (key : K) :
    ∀ l : List (K × V), EntriesDistinct cmp l →
      lookupFirst cmp key (removeFirst cmp key l) = none := by
  intro l
  induction l with
  | nil => intro _; simp [removeFirst, lookupFirst]
  | cons e rest ih =>
    intro hd
    rw [EntriesDistinct, List.pairwise_cons] at hd
    obtain ⟨hhead, htail⟩ := hd
    by_cases hc : cmp e.1 key = 0
    · simp only [removeFirst, hc, if_true]
      rw [lookupFirst_eq_none_iff]
      intro b hb hbk
      exact hhead b hb (ht _ _ _ hc (hs _ _ hbk))
    · simp only [removeFirst, hc, if_false, lookupFirst]
      exact ih htail

/-- Removing one key's entry leaves every non-equal key's lookup
unchanged. -/
theorem lookupFirst_removeFirst_other {K V : Type} (cmp : K → K → Int)
    (hs : ∀ a b, cmp a b = 0 → cmp b a = 0)
    (ht : ∀ a b c, cmp a b = 0 → cmp b c = 0 → cmp a c = 0)
    (key key2 : K) (hne : cmp key key2 ≠ 0) :
    ∀ l : List (K × V),
      lookupFirst cmp key2 (removeFirst cmp key l) = lookupFirst cmp key2 l := by
  intro l
  induction l with
  | nil => simp [removeFirst]
  | cons e rest ih =>
    by_cases hc : cmp e.1 key = 0
    · have he2 : cmp e.1 key2 ≠ 0 := fun h => hne (ht _ _ _ (hs _ _ hc) h)
      simp only [removeFirst, hc, if_true, lookupFirst, he2, if_false]
    · by_cases he2 : cmp e.1 key2 = 0
      · simp only [removeFirst, hc, if_false, lookupFirst, he2, if_true]
      · simp only [removeFirst, hc, if_false, lookupFirst, he2, if_true]
        exact ih

/-- Deleting a present key shrinks the occupied count by exactly one. -/
theorem removeFirst_length {K V : Type} (cmp : K → K → Int) (key : K)
    (l : List (K × V)) (i : Nat) (hf : findKeyIdx cmp key l = some i) :
    l.length = (removeFirst cmp key l).length + 1 := by
  have hb := find_then_erase_eq_removeFirst cmp key l
  rw [hf] at hb
  rw [← hb, List.length_eraseIdx_of_lt (findKeyIdx_lt_length cmp key l i hf)]
  have := findKeyIdx_lt_length cmp key l i hf
  omega

/-! ### Probe congruence and double-set support -/

/-- The scan's verdict depends on the probe key only through the
comparator. -/
theorem findKeyIdx_congr_probe {K V : Type} (cmp : K → K → Int) (k1 k2 : K)
    (h : ∀ a, cmp a k1 = cmp a k2) :
    ∀ l : List (K × V), findKeyIdx cmp k1 l = findKeyIdx cmp k2 l := by
  intro l
  induction l with
  | nil => rfl
  | cons e rest ih => simp only [findKeyIdx, h e.1, ih]

/-- The scan reads only the stored keys, never the stored values. -/
theorem findKeyIdx_congr_keys {K V : Type} (cmp : K → K → Int) (key : K) :
    ∀ l1 l2 : List (K × V), l1.map Prod.fst = l2.map Prod.fst →
      findKeyIdx cmp key l1 = findKeyIdx cmp key l2 := by
  intro l1
  induction l1 with
  | nil =>
    intro l2 h
    cases l2 with
    | nil => rfl
    | cons f r2 => simp at h
  | cons e r1 ih =>
    intro l2 h
    cases l2 with
    | nil => simp at h
    | cons f r2 =>
      simp only [List.map_cons, List.cons.injEq] at h
      simp only [findKeyIdx, h.1, ih r2 h.2]

/-- After a successful append of `(key, value)` to a list with no match
for `key`, a reflexive-at-`key` comparator finds the appended entry. -/
theorem findKeyIdx_append_self {K V : Type} (cmp : K → K → Int) (key : K)
    (value : V) (hr : cmp key key = 0) :
    ∀ l : List (K × V), findKeyIdx cmp key l = none →
      findKeyIdx cmp key (l ++ [(key, value)]) = some l.length := by
  intro l
  induction l with
  | nil => intro _; simp [findKeyIdx, hr]
  | cons e rest ih =>
    intro hf
    by_cases hc : cmp e.1 key = 0
    · simp [findKeyIdx, hc] at hf
    · simp only [findKeyIdx, hc, if_false] at hf ⊢
      cases h : findKeyIdx (K := K) (V := V) cmp key rest with
      | some j => rw [h] at hf; simp at hf
      | none =>
        simp only [List.append_eq]
        rw [ih h]
        simp [List.length_cons]

/-- Reading back the slot whose value was just overwritten. -/
theorem setValueAt_getElem_snd {K V : Type} (value : V) :
    ∀ (l : List (K × V)) (i : Nat), i < l.length →
      ((setValueAt l i value)[i]?).map Prod.snd = some value := by
  intro l
  induction l with
  | nil => intro i h; simp at h
  | cons e rest ih =>
    intro i h
    cases i with
    | zero => simp [setValueAt]
    | succ j =>
      simp only [setValueAt, List.getElem?_cons_succ]
      exact ih j (by simpa using h)

/-! ### Facts about the provided comparators -/

theorem str_lower_eq_nil : ∀ s : List Nat, str_lower s = [] := by
  intro s
  induction s with
  | nil => rfl
  | cons c rest ih => simpa [str_lower] using ih

theorem ignoring_case_eq_zero (key1 key2 : List Nat) :
    map_compare_string_keys_ignoring_case key1 key2 = 0 := by
  unfold map_compare_string_keys_ignoring_case
  rw [str_lower_eq_nil key1, str_lower_eq_nil key2]
  rfl

theorem strcmp_symm : ∀ a b : List Nat, strcmp a b = 0 → strcmp b a = 0 := by
  intro a
  induction a with
  | nil =>
    intro b h
    cases b with
    | nil => exact h
    | cons c r =>
      simp only [strcmp] at h ⊢
      omega
  | cons c1 r1 ih =>
    intro b h
    cases b with
    | nil =>
      simp only [strcmp] at h ⊢
      omega
    | cons c2 r2 =>
      by_cases hc : c1 = c2
      · subst hc
        simp only [strcmp, if_pos rfl] at h ⊢
        exact ih r2 h
      · simp only [strcmp, if_neg hc] at h
        omega

theorem fpEq_symm (a b : FpVal) : fpEq a b = true → fpEq b a = true := by
  cases a with
  | nan => intro h; simp [fpEq] at h
  | num qa =>
    cases b with
    | nan => intro h; simp [fpEq] at h
    | num qb =>
      intro h
      simp only [fpEq, beq_iff_eq] at h ⊢
      exact h.symm

/-- IEEE `==` holds exactly when both operands carry the same numeric
value (so never when either is NaN). -/
theorem fpEq_iff (a b : FpVal) :
    fpEq a b = true ↔ ∃ q : ℚ, a = FpVal.num q ∧ b = FpVal.num q := by
  cases a with
  | nan => simp [fpEq]
  | num qa =>
    cases b with
    | nan => simp [fpEq]
    | num qb =>
      simp only [fpEq, beq_iff_eq]
      constructor
      · intro h; exact ⟨qa, rfl, by rw [h]⟩
      · intro ⟨q, h1, h2⟩
        cases h1; cases h2; rfl

/-- A minimal well-behaved comparator on `Nat` keys, used only to
instantiate the generic theorems on concrete maps: `0` iff equal. -/
def natEqCmp (a b : Nat) : Int :=
  if a = b then 0 else -1

theorem natEqCmp_eq_zero_iff (a b : Nat) : natEqCmp a b = 0 ↔ a = b := by
  by_cases h : a = b <;> simp [natEqCmp, h]

theorem natEqCmp_isEquiv : IsEquivCmp natEqCmp := by
  refine ⟨?_, ?_, ?_⟩
  · intro a; simp [natEqCmp]
  · intro a b h
    rw [natEqCmp_eq_zero_iff] at h ⊢
    exact h.symm
  · intro a b c h1 h2
    rw [natEqCmp_eq_zero_iff] at h1 h2 ⊢
    exact h1.trans h2

/-! ### The claims -/

/-- C2: the claim says `map_compare_string_keys_ignoring_case` returns
zero iff the fully lower-cased forms of the two keys match byte-for-byte.
The code instead returns zero for *every* pair of non-NULL keys, because
`str_lower` returns a pointer to the end of the duplicated buffer, so the
comparison always sees two empty strings: at keys "a" and "b" (bytes 97
and 98) the code answers 0 although the lower-cased forms differ, while
the comparison the header documents answers nonzero. -/
theorem claim_C2_code_eval :
    map_compare_string_keys_ignoring_case [97] [98] = 0 ∧
    List.map tolower [97] ≠ List.map tolower [98] ∧
    documented_compare_ignoring_case [97] [98] ≠ 0 ∧
    str_lower [97] = [] ∧
    (∀ key1 key2 : List Nat, map_compare_string_keys_ignoring_case key1 key2 = 0) := by
  refine ⟨ignoring_case_eq_zero [97] [98], ?_, ?_, rfl, ignoring_case_eq_zero⟩
  · decide
  · decide

/-- C3: the claim says `map_compare_ptr_keys` returns zero — the value
`find_entry_index` treats as a key match — iff the two key references
denote the same storage location. The code returns the C boolean
`ptrKey1 == ptrKey2`: `1` when the pointers are equal and `0` when they
differ, exactly inverted. Consequently, in a map bound to this
comparator, a `get` with a *different* pointer matches the stored entry
while a `get` with the same pointer misses it. -/
theorem claim_C3_code_eval :
    map_compare_ptr_keys 4096 4096 = 1 ∧
    map_compare_ptr_keys 4096 4097 = 0 ∧
    (∀ p q : Nat, map_compare_ptr_keys p q = 0 ↔ p ≠ q) ∧
    map_getI { entries := [(4096, 11)], capacity := 1,
               compare_func := map_compare_ptr_keys } 5000 = some 11 ∧
    map_getI { entries := [(4096, 11)], capacity := 1,
               compare_func := map_compare_ptr_keys } 4096 = (none : Option Nat) := by
  refine ⟨rfl, rfl, ?_, ?_, ?_⟩
  · intro p q
    by_cases h : p = q <;> simp [map_compare_ptr_keys, h]
  · decide
  · decide

/-- C6: on a full map (`size == capacity`) where `set` must append a new
key, a failed reallocation makes `set` report `-1` (AllocationError) and
leave the map — entries, size and capacity — exactly as before. -/
theorem claim_C6 {K V : Type} (impl : MapImpl K V) (key : K) (value : V)
    (hfull : impl.size = impl.capacity)
    (hnew : find_entry_index impl key = none) :
    map_setI impl key value false = (-1, impl) := by
  unfold map_setI
  rw [hnew]
  have hge : impl.size ≥ impl.capacity := ge_of_eq hfull
  simp [hge]

/-- C6 witness: a concrete full one-slot map and a fresh key. -/
theorem claim_C6_witness :
    map_setI { entries := [(1, 10)], capacity := 1, compare_func := natEqCmp }
      2 (20 : Nat) false
      = (-1, { entries := [(1, 10)], capacity := 1, compare_func := natEqCmp }) :=
  claim_C6 { entries := [(1, 10)], capacity := 1, compare_func := natEqCmp }
    2 20 rfl (by decide)

/-- C7: `map_create` yields a map with size 0, the comparator bound, and
capacity at least the request, where a requested capacity of 0 means a
default capacity of 10; when allocation fails it yields no map. -/
theorem claim_C7 {K V : Type} (initial_capacity : Nat)
    (compare_func : K → K → Int) :
    map_create K V initial_capacity compare_func true
        = some (map_createI K V initial_capacity compare_func) ∧
    (map_createI K V initial_capacity compare_func).size = 0 ∧
    (map_createI K V initial_capacity compare_func).compare_func = compare_func ∧
    initial_capacity ≤ (map_createI K V initial_capacity compare_func).capacity ∧
    (initial_capacity = 0 →
      (map_createI K V initial_capacity compare_func).capacity = 10) ∧
    (initial_capacity ≠ 0 →
      (map_createI K V initial_capacity compare_func).capacity = initial_capacity) ∧
    map_create K V initial_capacity compare_func false = none := by
  refine ⟨rfl, rfl, rfl, ?_, ?_, ?_, rfl⟩
  · show initial_capacity ≤ (if initial_capacity = 0 then 10 else initial_capacity)
    by_cases h : initial_capacity = 0 <;> simp [h]
  · intro h
    show (if initial_capacity = 0 then 10 else initial_capacity) = 10
    simp [h]
  · intro h
    show (if initial_capacity = 0 then 10 else initial_capacity) = initial_capacity
    simp [h]

/-- C7 witness: requesting capacity 0 yields the default capacity 10. -/
theorem claim_C7_witness :
    (map_createI Nat Nat 0 natEqCmp).capacity = 10 :=
  (claim_C7 0 natEqCmp).2.2.2.2.1 rfl

/-- C8: `map_get_size` and `map_get_capacity` return the reserved
negative sentinel `-1` on a NULL map instead of faulting, and the
occupied count / allocated capacity on a valid map. -/
theorem claim_C8 {K V : Type} (impl : MapImpl K V) :
    map_get_size (some impl) = (impl.size : Int) ∧
    map_get_capacity (some impl) = (impl.capacity : Int) ∧
    map_get_size (none : Option (MapImpl K V)) = -1 ∧
    map_get_capacity (none : Option (MapImpl K V)) = -1 :=
  ⟨rfl, rfl, rfl, rfl⟩

/-- C10: on a NULL map every mutating and releasing operation is total
and non-faulting too: `set` returns `-1`, `get` returns NULL, and
`delete` and `free` return without acting. -/
theorem claim_C10 {K V : Type} (key : K) (value : V) (allocOk : Bool) :
    map_set (none : Option (MapImpl K V)) key value allocOk = (-1, none) ∧
    map_get (none : Option (MapImpl K V)) key = none ∧
    map_delete (none : Option (MapImpl K V)) key = none ∧
    map_free (none : Option (MapImpl K V)) = false :=
  ⟨rfl, rfl, rfl, rfl⟩

/-- C9: each numeric comparator answers `0` iff the dereferenced scalar
values are numerically equal — for float/double, standard IEEE equality
with no epsilon, so NaN matches nothing — and every mismatch answers the
single fixed sentinel `-1`; and since `find_entry_index` consults keys
only through the comparator, two distinct key instances (different
addresses) with equal dereferenced values are interchangeable for
`set`/`get`/`delete`. -/
theorem claim_C9 :
    (∀ k1 k2 : NumKey Int,
      (map_compare_int_keys k1 k2 = 0 ↔ k1.val = k2.val) ∧
      (k1.val ≠ k2.val → map_compare_int_keys k1 k2 = -1)) ∧
    (∀ k1 k2 : NumKey Nat,
      (map_compare_uint_keys k1 k2 = 0 ↔ k1.val = k2.val) ∧
      (k1.val ≠ k2.val → map_compare_uint_keys k1 k2 = -1)) ∧
    (∀ k1 k2 : NumKey FpVal,
      (map_compare_float_keys k1 k2 = 0 ↔
        ∃ q : ℚ, k1.val = FpVal.num q ∧ k2.val = FpVal.num q) ∧
      (map_compare_float_keys k1 k2 ≠ 0 → map_compare_float_keys k1 k2 = -1)) ∧
    (∀ k1 k2 : NumKey FpVal,
      (map_compare_double_keys k1 k2 = 0 ↔
        ∃ q : ℚ, k1.val = FpVal.num q ∧ k2.val = FpVal.num q) ∧
      (map_compare_double_keys k1 k2 ≠ 0 → map_compare_double_keys k1 k2 = -1)) ∧
    (∀ (V : Type) (impl : MapImpl (NumKey Int) V) (k1 k2 : NumKey Int),
      impl.compare_func = map_compare_int_keys → k1.val = k2.val →
      find_entry_index impl k1 = find_entry_index impl k2 ∧
      map_getI impl k1 = map_getI impl k2) ∧
    (∀ (V : Type) (impl : MapImpl (NumKey FpVal) V) (k1 k2 : NumKey FpVal),
      impl.compare_func = map_compare_float_keys → k1.val = k2.val →
      find_entry_index impl k1 = find_entry_index impl k2 ∧
      map_getI impl k1 = map_getI impl k2) := by
  have hint : ∀ k1 k2 : NumKey Int,
      (map_compare_int_keys k1 k2 = 0 ↔ k1.val = k2.val) ∧
      (k1.val ≠ k2.val → map_compare_int_keys k1 k2 = -1) := by
    intro k1 k2
    by_cases h : k1.val = k2.val <;> simp [map_compare_int_keys, h]
  have huint : ∀ k1 k2 : NumKey Nat,
      (map_compare_uint_keys k1 k2 = 0 ↔ k1.val = k2.val) ∧
      (k1.val ≠ k2.val → map_compare_uint_keys k1 k2 = -1) := by
    intro k1 k2
    by_cases h : k1.val = k2.val <;> simp [map_compare_uint_keys, h]
  have hfp : ∀ k1 k2 : NumKey FpVal,
      (map_compare_float_keys k1 k2 = 0 ↔
        ∃ q : ℚ, k1.val = FpVal.num q ∧ k2.val = FpVal.num q) ∧
      (map_compare_float_keys k1 k2 ≠ 0 → map_compare_float_keys k1 k2 = -1) := by
    intro k1 k2
    constructor
    · rw [← fpEq_iff k1.val k2.val]
      by_cases h : fpEq k1.val k2.val = true <;> simp [map_compare_float_keys, h]
    · by_cases h : fpEq k1.val k2.val = true <;> simp [map_compare_float_keys, h]
  have hgen : ∀ (K2 V : Type) (impl : MapImpl K2 V) (k1 k2 : K2),
      (∀ a, impl.compare_func a k1 = impl.compare_func a k2) →
      find_entry_index impl k1 = find_entry_index impl k2 ∧
      map_getI impl k1 = map_getI impl k2 := by
    intro K2 V impl k1 k2 hcong
    have hfind : find_entry_index impl k1 = find_entry_index impl k2 :=
      findKeyIdx_congr_probe impl.compare_func k1 k2 hcong impl.entries
    refine ⟨hfind, ?_⟩
    unfold map_getI
    rw [hfind]
  refine ⟨hint, huint, hfp, hfp, ?_, ?_⟩
  · intro V impl k1 k2 hcf hv
    exact hgen (NumKey Int) V impl k1 k2 (by
      intro a
      rw [hcf]
      simp [map_compare_int_keys, hv])
  · intro V impl k1 k2 hcf hv
    exact hgen (NumKey FpVal) V impl k1 k2 (by
      intro a
      rw [hcf]
      simp [map_compare_float_keys, hv])

/-- C9 witness: two int keys at distinct addresses holding the value 7
compare equal, and a probe at a fresh address retrieves the entry a
different instance stored; a NaN float key never matches itself. -/
theorem claim_C9_witness :
    map_compare_int_keys { addr := 100, val := 7 } { addr := 200, val := 7 } = 0 ∧
    map_getI { entries := [({ addr := 100, val := 7 }, 42)], capacity := 1,
               compare_func := map_compare_int_keys } { addr := 300, val := 7 }
      = some 42 ∧
    map_compare_float_keys { addr := 4, val := FpVal.nan }
      { addr := 4, val := FpVal.nan } = -1 := by
  refine ⟨?_, ?_, ?_⟩
  · exact (claim_C9.1 { addr := 100, val := 7 } { addr := 200, val := 7 }).1.mpr rfl
  · have := (claim_C9.2.2.2.2.1 Nat
      { entries := [({ addr := 100, val := 7 }, 42)], capacity := 1,
        compare_func := map_compare_int_keys }
      { addr := 100, val := 7 } { addr := 300, val := 7 } rfl rfl).2
    rw [← this]
    decide
  · exact (claim_C9.2.2.1 { addr := 4, val := FpVal.nan }
      { addr := 4, val := FpVal.nan }).2 (by decide)

/-- C1: on a map created with a comparator whose "equal" kernel is an
equivalence, after any sequence of successful `set` operations a `get`
whose probe compares equal to some previously set key returns the most
recently set value for that key (and `none` when no set key matches).
In particular, `set(k, v1)` then `set(k, v2)` on the same map — any map
state, any allocation outcomes, the first `set` succeeding — leaves the
size, the capacity and every stored key reference untouched, succeeds,
and makes `get(k)` return `v2`. -/
theorem claim_C1 {K V : Type} (cmp : K → K → Int) (he : IsEquivCmp cmp)
    (initial_capacity : Nat) :
    (∀ (ops : List (K × V)) (probe : K),
      map_getI (setAll (map_createI K V initial_capacity cmp) ops) probe
        = lastValueFor cmp probe ops) ∧
    (∀ (impl : MapImpl K V) (k : K) (v1 v2 : V) (b1 b2 : Bool)
        (r1 r2 : Int) (m1 m2 : MapImpl K V),
      impl.compare_func = cmp →
      map_setI impl k v1 b1 = (r1, m1) → r1 = 0 →
      map_setI m1 k v2 b2 = (r2, m2) →
      r2 = 0 ∧ m2.size = m1.size ∧ m2.capacity = m1.capacity ∧
      m2.entries.map Prod.fst = m1.entries.map Prod.fst ∧
      map_getI m2 k = some v2) := by
  obtain ⟨hrefl, hsymm, htrans⟩ := he
  constructor
  · intro ops probe
    have hcf : (map_createI K V initial_capacity cmp).compare_func = cmp := rfl
    rw [map_getI_setAll ops (map_createI K V initial_capacity cmp)
      (by rw [hcf]; exact ⟨hrefl, hsymm, htrans⟩) probe, hcf]
    have hempty : map_getI (map_createI K V initial_capacity cmp) probe = none := rfl
    rw [hempty, Option.or_none]
  · intro impl k v1 v2 b1 b2 r1 r2 m1 m2 hcf hset1 hr1 hset2
    have hm1cf : m1.compare_func = cmp := by
      have : m1 = (map_setI impl k v1 b1).2 := by rw [hset1]
      rw [this, map_setI_compare_func, hcf]
    -- after the first successful set, some entry matches k
    have hfound : ∃ j, findKeyIdx cmp k m1.entries = some j := by
      rcases map_setI_cases impl k v1 b1 with
        ⟨i, hf, heq⟩ | ⟨hf, _, _, heq⟩ | ⟨_, _, _, heq⟩ | ⟨hf, _, heq⟩
      · refine ⟨i, ?_⟩
        have hm1 : m1 = { impl with entries := setValueAt impl.entries i v1 } := by
          rw [hset1] at heq
          exact ((Prod.mk.injEq _ _ _ _ |>.mp heq.symm).2).symm
        rw [hm1]
        show findKeyIdx cmp k (setValueAt impl.entries i v1) = some i
        rw [findKeyIdx_congr_keys cmp k _ impl.entries (setValueAt_map_fst v1 impl.entries i)]
        rw [find_entry_index, hcf] at hf
        exact hf
      · refine ⟨impl.entries.length, ?_⟩
        have hm1 : m1 = { impl with capacity := impl.capacity * 2,
                                    entries := impl.entries ++ [(k, v1)] } := by
          rw [hset1] at heq
          exact ((Prod.mk.injEq _ _ _ _ |>.mp heq.symm).2).symm
        rw [hm1]
        show findKeyIdx cmp k (impl.entries ++ [(k, v1)]) = some impl.entries.length
        rw [find_entry_index, hcf] at hf
        exact findKeyIdx_append_self cmp k v1 (hrefl k) impl.entries hf
      · rw [hset1] at heq
        have : r1 = -1 := ((Prod.mk.injEq _ _ _ _ |>.mp heq.symm).1).symm
        rw [hr1] at this
        exact absurd this (by decide)
      · refine ⟨impl.entries.length, ?_⟩
        have hm1 : m1 = { impl with entries := impl.entries ++ [(k, v1)] } := by
          rw [hset1] at heq
          exact ((Prod.mk.injEq _ _ _ _ |>.mp heq.symm).2).symm
        rw [hm1]
        show findKeyIdx cmp k (impl.entries ++ [(k, v1)]) = some impl.entries.length
        rw [find_entry_index, hcf] at hf
        exact findKeyIdx_append_self cmp k v1 (hrefl k) impl.entries hf
    obtain ⟨j, hj⟩ := hfound
    have hj2 : find_entry_index m1 k = some j := by
      rw [find_entry_index, hm1cf]
      exact hj
    -- so the second set takes the update-in-place branch
    rcases map_setI_cases m1 k v2 b2 with
      ⟨i2, hf2, heq2⟩ | ⟨hf2, _, _, _⟩ | ⟨hf2, _, _, _⟩ | ⟨hf2, _, _⟩
    · rw [hset2] at heq2
      have hr2 : r2 = 0 := ((Prod.mk.injEq _ _ _ _ |>.mp heq2.symm).1).symm
      have hm2 : m2 = { m1 with entries := setValueAt m1.entries i2 v2 } :=
        ((Prod.mk.injEq _ _ _ _ |>.mp heq2.symm).2).symm
      have hkeys : m2.entries.map Prod.fst = m1.entries.map Prod.fst := by
        rw [hm2]
        exact setValueAt_map_fst v2 m1.entries i2
      refine ⟨hr2, ?_, ?_, hkeys, ?_⟩
      · show m2.entries.length = m1.entries.length
        rw [hm2]
        exact setValueAt_length v2 m1.entries i2
      · rw [hm2]
      · have hi2j : i2 = j := (Option.some.inj (hj2.symm.trans hf2)).symm
        have hm2cf : m2.compare_func = cmp := by rw [hm2]; exact hm1cf
        have hfind2 : find_entry_index m2 k = some j := by
          rw [find_entry_index, hm2cf, findKeyIdx_congr_keys cmp k m2.entries m1.entries hkeys]
          exact hj
        unfold map_getI
        rw [hfind2, hm2, hi2j]
        show ((setValueAt m1.entries j v2)[j]?).map Prod.snd = some v2
        exact setValueAt_getElem_snd v2 m1.entries j
          (findKeyIdx_lt_length cmp k m1.entries j hj)
    · rw [hj2] at hf2; exact absurd hf2 (by simp)
    · rw [hj2] at hf2; exact absurd hf2 (by simp)
    · rw [hj2] at hf2; exact absurd hf2 (by simp)

/-- C1 witness: from an empty map, set key 5 to 10 then to 20; the get
returns 20, the most recent value, matching `lastValueFor`. -/
theorem claim_C1_witness :
    map_getI (setAll (map_createI Nat Nat 2 natEqCmp) [(5, 10), (5, 20)]) 5
      = lastValueFor natEqCmp 5 [(5, 10), (5, 20)] ∧
    lastValueFor natEqCmp 5 [(5, 10), (5, 20)] = some 20 :=
  ⟨(claim_C1 natEqCmp natEqCmp_isEquiv 2).1 [(5, 10), (5, 20)] 5, by decide⟩

/-- C4: on a map created with any symmetrically-signalling comparator —
each provided comparator signals symmetrically — after any sequence of
set/get/delete operations no two entries at different indices compare
equal under the bound comparator, size never exceeds capacity, and
capacity never decreases across any run of operations from any state. -/
theorem claim_C4 {K V : Type} (cmp : K → K → Int) (hsymm : SymmCmp cmp)
    (initial_capacity : Nat) (ops : List (MapOp K V)) :
    List.Pairwise (fun a b => cmp a.1 b.1 ≠ 0 ∧ cmp b.1 a.1 ≠ 0)
        (applyOps (map_createI K V initial_capacity cmp) ops).entries ∧
    (applyOps (map_createI K V initial_capacity cmp) ops).size
      ≤ (applyOps (map_createI K V initial_capacity cmp) ops).capacity ∧
    (∀ (start : MapImpl K V) (more : List (MapOp K V)),
      start.capacity ≤ (applyOps start more).capacity) ∧
    SymmCmp map_compare_string_keys ∧
    SymmCmp map_compare_string_keys_ignoring_case ∧
    SymmCmp map_compare_int_keys ∧
    SymmCmp map_compare_uint_keys ∧
    SymmCmp map_compare_float_keys ∧
    SymmCmp map_compare_double_keys ∧
    SymmCmp map_compare_ptr_keys := by
  have hwf := applyOps_preserves_WF ops (map_createI K V initial_capacity cmp)
    (map_createI_WF initial_capacity cmp)
  obtain ⟨hcap, hsz, hdist⟩ := hwf
  refine ⟨?_, hsz, ?_, ?_, ?_, ?_, ?_, ?_, ?_, ?_⟩
  · have hcf : (applyOps (map_createI K V initial_capacity cmp) ops).compare_func = cmp :=
      applyOps_compare_func ops (map_createI K V initial_capacity cmp)
    rw [EntriesDistinct, hcf] at hdist
    exact hdist.imp (fun hab => ⟨hab, fun hba => hab (hsymm _ _ hba)⟩)
  · intro start more
    exact applyOps_capacity_mono more start
  · exact strcmp_symm
  · intro a b _
    exact ignoring_case_eq_zero b a
  · intro k1 k2 h
    by_cases hv : k1.val = k2.val
    · simp [map_compare_int_keys, hv]
    · simp [map_compare_int_keys, hv] at h
  · intro k1 k2 h
    by_cases hv : k1.val = k2.val
    · simp [map_compare_uint_keys, hv]
    · simp [map_compare_uint_keys, hv] at h
  · intro k1 k2 h
    by_cases hv : fpEq k1.val k2.val = true
    · simp [map_compare_float_keys, fpEq_symm _ _ hv]
    · simp [map_compare_float_keys, hv] at h
  · intro k1 k2 h
    by_cases hv : fpEq k1.val k2.val = true
    · simp [map_compare_double_keys, fpEq_symm _ _ hv]
    · simp [map_compare_double_keys, hv] at h
  · intro p q h
    by_cases hv : p = q
    · simp [map_compare_ptr_keys, hv] at h
    · simp only [map_compare_ptr_keys]
      rw [if_neg (fun hqp : q = p => hv hqp.symm)]

/-- C4 witness: a concrete run — two inserts, one delete — on a map
created with capacity 1 and an equality comparator on `Nat`. -/
theorem claim_C4_witness :
    List.Pairwise (fun a b => natEqCmp a.1 b.1 ≠ 0 ∧ natEqCmp b.1 a.1 ≠ 0)
      (applyOps (map_createI Nat Nat 1 natEqCmp)
        [MapOp.set 1 10 true, MapOp.set 2 20 true, MapOp.delete 1]).entries :=
  (claim_C4 natEqCmp natEqCmp_isEquiv.2.1 1
    [MapOp.set 1 10 true, MapOp.set 2 20 true, MapOp.delete 1]).1

/-- C5: on any map whose comparator kernel is an equivalence and whose
stored keys are pairwise distinct, deleting a key that matches the entry
at index `i` closes the gap by shifting the later entries down one place
(take-append-drop), decrements size by exactly one, keeps capacity, makes
a `get` of that key report not-found, and leaves every non-equal key
bound to its prior value; deleting an absent key changes nothing. -/
theorem claim_C5 {K V : Type} (impl : MapImpl K V)
    (he : IsEquivCmp impl.compare_func)
    (hdist : EntriesDistinct impl.compare_func impl.entries) (key : K) :
    (∀ i, find_entry_index impl key = some i →
      (map_deleteI impl key).entries
          = impl.entries.take i ++ impl.entries.drop (i + 1) ∧
      (map_deleteI impl key).size + 1 = impl.size ∧
      (map_deleteI impl key).capacity = impl.capacity ∧
      map_getI (map_deleteI impl key) key = none ∧
      (∀ (key2 : K) (v : V), impl.compare_func key key2 ≠ 0 →
        map_getI impl key2 = some v →
        map_getI (map_deleteI impl key) key2 = some v)) ∧
    (find_entry_index impl key = none → map_deleteI impl key = impl) := by
  obtain ⟨hrefl, hsymm, htrans⟩ := he
  obtain ⟨hent, hcf, hcap⟩ := map_deleteI_entries_eq_removeFirst impl key
  constructor
  · intro i hf
    have hflt : i < impl.entries.length :=
      findKeyIdx_lt_length impl.compare_func key impl.entries i hf
    have herase : (map_deleteI impl key).entries = impl.entries.eraseIdx i := by
      unfold map_deleteI
      rw [hf]
    refine ⟨?_, ?_, hcap, ?_, ?_⟩
    · rw [herase]
      exact List.eraseIdx_eq_take_drop_succ impl.entries i
    · show (map_deleteI impl key).entries.length + 1 = impl.entries.length
      rw [herase, List.length_eraseIdx_of_lt hflt]
      omega
    · rw [map_getI_eq_lookupFirst, hcf, hent]
      exact lookupFirst_removeFirst_self impl.compare_func hsymm htrans key
        impl.entries hdist
    · intro key2 v hne hv
      rw [map_getI_eq_lookupFirst, hcf, hent,
        lookupFirst_removeFirst_other impl.compare_func hsymm htrans key key2 hne]
      rw [map_getI_eq_lookupFirst] at hv
      exact hv
  · intro hf
    unfold map_deleteI
    rw [hf]

/-- C5 witness: deleting key 1 from a concrete two-entry map empties its
slot, leaves key 2 retrievable, and shrinks the size from 2 to 1. -/
theorem claim_C5_witness :
    map_getI (map_deleteI { entries := [(1, 10), (2, 20)], capacity := 2,
                            compare_func := natEqCmp } 1) 1 = (none : Option Nat) ∧
    map_getI (map_deleteI { entries := [(1, 10), (2, 20)], capacity := 2,
                            compare_func := natEqCmp } 1) 2 = some 20 ∧
    (map_deleteI { entries := [(1, 10), (2, 20)], capacity := 2,
                   compare_func := natEqCmp } 1).size + 1 = 2 := by
  have h := (claim_C5 { entries := [(1, 10), (2, 20)], capacity := 2,
                        compare_func := natEqCmp } natEqCmp_isEquiv
    (by unfold EntriesDistinct; decide) 1).1 0 (by decide)
  exact ⟨h.2.2.2.1, h.2.2.2.2 2 20 (by decide) (by decide), h.2.1⟩

end SimpleCMap
